import Mathlib

/-!
# Verification of the mysql_gembed marshalling layer

A shallow embedding of the core of `src/mysql_gembed.cc`:

* `parse_json_string_array` (lines 201-288): the hand-rolled JSON
  string-array decoder, embedded as the character-at-a-time machine
  `runParse` (the C code's inner whitespace- and string-scanning loops are
  unrolled to one character per step, which computes the same function).
  Bytes are modelled as `Char`.
* an allocation-instrumented twin `runParseA` that additionally carries the
  capacity of the growable arrays and a counter of live heap allocations
  (`new[]` minus `delete[]`), mirroring every allocation and release site of
  the C function.
* the batch JSON serializer of `generate_embeddings` (lines 360-392),
  embedded as `serNums`/`serVecs`/`serializeA` over rational vector entries,
  with the 1 MiB capacity and the 1000-byte safety-margin check after each
  number, and a trace of every checked length.
* the binary single-vector encoder of `generate_embedding` (lines 149-169),
  with floats modelled by their IEEE-754 single-precision bit patterns
  (the C code only `memcpy`s them) and the dimension written as a 4-byte
  little-endian (native order on the supported platforms) unsigned integer.
* the two UDF entry points `generate_embedding` / `generate_embeddings`,
  embedded as `generate_embeddingM` / `generate_embeddingsM` over an
  abstract engine (validators as function parameters, the engine outcome
  as an error-code/batch parameter), returning the host-visible outcome
  (`null` flag, `error` flag, or a produced value) together with a trace of
  whether the engine was invoked, how many times `free_embedding_batch`
  ran, and the number of live allocations at return.
-/

/-- Whitespace test of the parser: `' '`, `'\t'`, `'\n'`, `'\r'`
(mysql_gembed.cc lines 212 and 222). -/
def isWs (c : Char) : Bool :=
  c = ' ' || c = '\t' || c = '\n' || c = '\r'

/-- Skip leading whitespace (the `while ... p++` loop at line 212). -/
def skipWs : List Char → List Char
  | [] => []
  | c :: r => if isWs c then skipWs r else c :: r

/-- Parser mode: scanning between values (`top`, with the accumulated
elements in reverse), or inside a string token (`ins`, carrying the suffix
at the token start = `str_start`, the running `str_len`, and whether the
previous byte was an unconsumed backslash). -/
inductive PM where
  | top : List (List Char) → PM
  | ins : List (List Char) → List Char → Nat → Bool → PM

/-- The element-collecting loop of `parse_json_string_array`
(lines 220-282), one input character per step.

In `top` mode: end of input or `']'` stops with success, whitespace and
`','` are skipped, `'"'` enters a string token, anything else is a parse
error. In `ins` mode: an escape consumes the next byte without counting it,
`'"'` ends the token and appends `str_start.take str_len` (the C code
`memcpy`s `str_len` bytes from `str_start`), any other byte bumps
`str_len`; end of input inside a token is a parse error. -/
def runParse : List Char → PM → Option (List (List Char))
  | [], PM.top acc => some acc.reverse
  | [], PM.ins _ _ _ _ => none
  | c :: rest, PM.top acc =>
    if isWs c then runParse rest (PM.top acc)
    else if c = ']' then some acc.reverse
    else if c = ',' then runParse rest (PM.top acc)
    else if c = '"' then runParse rest (PM.ins acc rest 0 false)
    else none
  | c :: rest, PM.ins acc start len esc =>
    if esc then runParse rest (PM.ins acc start len false)
    else if c = '"' then runParse rest (PM.top (start.take len :: acc))
    else if c = '\\' then runParse rest (PM.ins acc start (len + 1) true)
    else runParse rest (PM.ins acc start (len + 1) false)

/-- `parse_json_string_array` (lines 201-288): skip leading whitespace,
require `'['`, then run the element loop.  `none` models the `-1` error
return (no output parameters written); `some l` models the `0` return with
`out_strings`/`out_lengths`/`out_count` describing `l`. -/
def parse_json_string_array (json : List Char) : Option (List (List Char)) :=
  let q := skipWs json
  if q.head? = some '[' then runParse q.tail (PM.top []) else none

/-- Allocation-instrumented twin of `runParse`.  `cap` is the capacity of
the `strings`/`lengths` arrays (initially 10, doubled when full at lines
260-270; the growth allocates two arrays and releases the two old ones, a
net zero on the live count) and `live` counts live heap allocations:
the two backing arrays plus one `str_copy` per stored element.  Error
returns first release every stored element and both arrays (lines 232-236
and 252-256), hence yield `live - acc.length - 2`. -/
def runParseA : List Char → PM → Nat → Int → Option (List (List Char)) × Int
  | [], PM.top acc, _, live => (some acc.reverse, live)
  | [], PM.ins acc _ _ _, _, live => (none, live - acc.length - 2)
  | c :: rest, PM.top acc, cap, live =>
    if isWs c then runParseA rest (PM.top acc) cap live
    else if c = ']' then (some acc.reverse, live)
    else if c = ',' then runParseA rest (PM.top acc) cap live
    else if c = '"' then runParseA rest (PM.ins acc rest 0 false) cap live
    else (none, live - acc.length - 2)
  | c :: rest, PM.ins acc start len esc, cap, live =>
    if esc then runParseA rest (PM.ins acc start len false) cap live
    else if c = '"' then
      if acc.length ≥ cap then
        runParseA rest (PM.top (start.take len :: acc)) (cap * 2) (live + 1)
      else runParseA rest (PM.top (start.take len :: acc)) cap (live + 1)
    else if c = '\\' then runParseA rest (PM.ins acc start (len + 1) true) cap live
    else runParseA rest (PM.ins acc start (len + 1) false) cap live

/-- Instrumented `parse_json_string_array`: the function allocates the two
backing arrays up front (lines 203-205, `live = 2`, `capacity = 10`); a
missing `'['` releases both before the `-1` return (lines 213-217), leaving
0 live allocations.  The second component is the number of live heap
allocations when the function returns (on success these are the
`count + 2` buffers handed to the caller). -/
def parse_json_string_array_instr (json : List Char) :
    Option (List (List Char)) × Int :=
  let q := skipWs json
  if q.head? = some '[' then runParseA q.tail (PM.top []) 10 2 else (none, 0)

/-! ## Batch JSON serializer (generate_embeddings, lines 360-392) -/

/-- The fixed output capacity: `size_t json_capacity = 1024 * 1024` (line 361). -/
def jsonCapacity : Nat := 1024 * 1024

/-- Zero-pad the digits of `0 ≤ n < 10 ^ 6` to exactly six characters:
the fractional part printed by `%.6f`. -/
def sixDigits (n : Int) : List Char :=
  let s := (toString n).toList
  List.replicate (6 - s.length) '0' ++ s

/-- `snprintf("%.6f", x)` on a nonnegative value: fixed-point formatting
with exactly six digits after the decimal point, rounding to the nearest
multiple of `10 ^ (-6)`.  `n` is `⌊q * 10 ^ 6 + 1 / 2⌋` written directly on
the numerator/denominator so that it evaluates in the kernel; for a
nonnegative `q = num / den` this is `(num * 10 ^ 6 * 2 + den) / (2 * den)`.
The entries are modelled as rationals; for values of a binary
floating-point type the scaled value `q * 10 ^ 6` is never exactly half an
odd integer, so rounding half up on the magnitude agrees with C's
round-half-to-even. -/
def fmt6nn (q : ℚ) : List Char :=
  let n : Int := (q.num * 1000000 * 2 + q.den) / (2 * q.den)
  (toString (n / 1000000)).toList ++ '.' :: sixDigits (n % 1000000)

/-- Format a rational as `%.6f` does (sign, then the magnitude). -/
def fmt6 (q : ℚ) : List Char :=
  if q < 0 then '-' :: fmt6nn (-q) else fmt6nn q

/-- Row `i` of the flat row-major batch data: the C code reads
`batch.data[i * batch.dim + j]` for `j < batch.dim` (line 378). -/
def rowOf (data : List ℚ) (dim i : Nat) : List ℚ :=
  (List.range dim).map fun j => data.getD (i * dim + j) 0

/-- The inner `j` loop (lines 373-387): a separating `','` when `j > 0`,
then the `%.6f`-formatted entry, then the safety-margin check
`json_len > json_capacity - 1000` (line 380), which aborts serialization.
The remaining row entries are passed as a peeled list (`vals`), with `j`
retained for the separator test; every checked length is recorded in
`lens`. -/
def serNums : List ℚ → Nat → List Char → List Nat → Option (List Char) × List Nat
  | [], _, out, lens => (some out, lens)
  | v :: vals, j, out, lens =>
    let out1 := (if 0 < j then out ++ [','] else out) ++ fmt6 v
    let lens1 := lens ++ [out1.length]
    if jsonCapacity - 1000 < out1.length then (none, lens1)
    else serNums vals (j + 1) out1 lens1

/-- The outer `i` loop (lines 367-390): a separating `','` when `i > 0`,
an opening `'['`, the row entries via `serNums`, a closing `']'`.
`k` counts the remaining vectors (`n_vectors - i`). -/
def serVecs (data : List ℚ) (dim : Nat) :
    Nat → Nat → List Char → List Nat → Option (List Char) × List Nat
  | _, 0, out, lens => (some out, lens)
  | i, k + 1, out, lens =>
    match serNums (rowOf data dim i) 0 ((if 0 < i then out ++ [','] else out) ++ ['[']) lens with
    | (none, lens1) => (none, lens1)
    | (some out1, lens1) => serVecs data dim (i + 1) k (out1 ++ [']']) lens1

/-- The whole serialization of `generate_embeddings` (lines 365-392):
`"["`, the vectors, `"]"`.  `none` models the abort on the capacity check;
the second component lists every length examined by that check. -/
def serializeA (data : List ℚ) (nv dim : Nat) : Option (List Char) × List Nat :=
  match serVecs data dim 0 nv ['['] [] with
  | (none, lens) => (none, lens)
  | (some out, lens) => (some (out ++ [']']), lens)

/-- Comma-separated join, for stating the intended output shape. -/
def commaJoin : List (List Char) → List Char
  | [] => []
  | [s] => s
  | s :: t :: r => s ++ ',' :: commaJoin (t :: r)

/-- The rows of the batch, in order. -/
def rowsOf (data : List ℚ) (nv dim : Nat) : List (List ℚ) :=
  (List.range nv).map (rowOf data dim)

/-- The output shape stated by the spec: a JSON array of `n_vectors`
arrays of `dim` numbers, each `%.6f`-formatted, comma-separated, no
whitespace. -/
def batchJsonSpec (data : List ℚ) (nv dim : Nat) : List Char :=
  '[' :: commaJoin ((rowsOf data nv dim).map
    fun r => '[' :: commaJoin (r.map fmt6) ++ [']']) ++ [']']

/-! ## Binary vector format and the two UDF entry points -/

/-- The 4 bytes of an unsigned 32-bit value in little-endian (native on the
supported platforms) order, as written by `*reinterpret_cast<uint32_t*>`
(line 155) and by `memcpy` of one 4-byte float (line 158).  Bytes are
modelled as naturals below 256. -/
def u32le (n : Nat) : List Nat :=
  [n % 256, n / 256 % 256, n / 65536 % 256, n / 16777216 % 256]

/-- Decode 4 little-endian bytes back to the unsigned 32-bit value. -/
def decodeU32 : List Nat → Nat
  | [a, b, c, d] => a + 256 * b + 65536 * c + 16777216 * d
  | _ => 0

/-- Decode a byte sequence as consecutive 4-byte little-endian words (the
bit patterns of the IEEE-754 single-precision floats of the vector). -/
def decodeF32s : List Nat → List Nat
  | a :: b :: c :: d :: rest => decodeU32 [a, b, c, d] :: decodeF32s rest
  | _ => []

/-- The host-visible outcome of one UDF call: the null flag
(`*is_null = 1`, no error), the error flag (`*error = 1`, no value), or a
returned value. -/
inductive UdfRes (α : Type) where
  | null : UdfRes α
  | err : UdfRes α
  | ok : α → UdfRes α
deriving DecidableEq

/-- `EmbeddingBatch` as consumed by `generate_embedding`: the floats are
only ever `memcpy`ed, so `data` holds their IEEE-754 single-precision bit
patterns. -/
structure Batch32 where
  data : List Nat
  n_vectors : Nat
  dim : Nat

/-- `EmbeddingBatch` as consumed by `generate_embeddings`: the floats are
only ever `%.6f`-formatted, so `data` holds their real values. -/
structure BatchQ where
  data : List ℚ
  n_vectors : Nat
  dim : Nat

/-- Trace of one `generate_embedding` call: whether
`generate_embeddings_from_texts` was invoked, and how many times
`free_embedding_batch` ran. -/
structure STrace where
  engineCalled : Bool
  releases : Nat
deriving DecidableEq

/-- Trace of one `generate_embeddings` call: engine invocation,
`free_embedding_batch` count, and the number of live heap allocations at
return (`new[]` minus `delete[]`; the buffer handed to the per-call
context counts as live). -/
structure BTrace where
  engineCalled : Bool
  releases : Nat
  live : Int
deriving DecidableEq

/-- `INPUT_TYPE_TEXT` (mysql_gembed.h line 28). -/
def INPUT_TYPE_TEXT : Int := 0

/-- `generate_embedding` (lines 105-170), over an abstract engine: the
validators `vm` / `vmo` stand for `validate_embedding_method` /
`validate_embedding_model`, and the outcome of
`generate_embeddings_from_texts` for this call is the pair
`(engineErr, batch)`.  A missing argument reports null (lines 112-115);
a negative validator result reports the error flag (lines 118-131);
`err != 0 || batch.n_vectors != 1` releases the batch and reports the
error flag (lines 142-147); otherwise the result is the 4-byte dimension
followed by the `memcpy`ed float array (lines 149-169), and the batch is
released. -/
def generate_embeddingM (method model text : Option (List Char))
    (vm : List Char → Int) (vmo : Int → List Char → Int → Int)
    (engineErr : Int) (batch : Batch32) : UdfRes (List Nat) × STrace :=
  match method, model, text with
  | some m, some mo, some _ =>
    if vm m < 0 then (UdfRes.err, ⟨false, 0⟩)
    else if vmo (vm m) mo INPUT_TYPE_TEXT < 0 then (UdfRes.err, ⟨false, 0⟩)
    else if engineErr ≠ 0 ∨ batch.n_vectors ≠ 1 then (UdfRes.err, ⟨true, 1⟩)
    else (UdfRes.ok (u32le batch.dim ++ (batch.data.map u32le).flatten), ⟨true, 1⟩)
  | _, _, _ => (UdfRes.null, ⟨false, 0⟩)

/-- `generate_embeddings` (lines 290-404), over an abstract engine.
A missing argument reports null (lines 297-300); a negative validator
result reports the error flag (lines 303-316); a parse failure reports the
error flag (lines 323-327, the parser having released its allocations);
zero decoded strings report null (lines 329-332; note the code returns
without releasing the two backing arrays, so they stay live); otherwise
the `inputs` array is allocated (+1), the engine is invoked, and the
decoded strings, both backing arrays and `inputs` are released
(lines 335-351: `live1 = plive + 1 - (strs.length + 2) - 1`).  A nonzero
engine error releases the batch and reports the error flag (lines
353-358); serialization allocates the output buffer (+1) and either aborts
on the capacity check — releasing the buffer and the batch (lines
380-386) — or succeeds, releasing the batch and handing the buffer to the
per-call context (lines 389-403). -/
def generate_embeddingsM (method model texts : Option (List Char))
    (vm : List Char → Int) (vmo : Int → List Char → Int → Int)
    (engineErr : Int) (batch : BatchQ) : UdfRes (List Char) × BTrace :=
  match method, model, texts with
  | some m, some mo, some t =>
    if vm m < 0 then (UdfRes.err, ⟨false, 0, 0⟩)
    else if vmo (vm m) mo INPUT_TYPE_TEXT < 0 then (UdfRes.err, ⟨false, 0, 0⟩)
    else
      match parse_json_string_array_instr t with
      | (none, plive) => (UdfRes.err, ⟨false, 0, plive⟩)
      | (some strs, plive) =>
        if strs.length = 0 then (UdfRes.null, ⟨false, 0, plive⟩)
        else
          let live1 : Int := plive + 1 - (strs.length + 2) - 1
          if engineErr ≠ 0 then (UdfRes.err, ⟨true, 1, live1⟩)
          else
            match (serializeA batch.data batch.n_vectors batch.dim).1 with
            | none => (UdfRes.err, ⟨true, 1, live1 + 1 - 1⟩)
            | some s => (UdfRes.ok s, ⟨true, 1, live1 + 1⟩)
  | _, _, _ => (UdfRes.null, ⟨false, 0, 0⟩)

/-- A validator accepting every method name with id 0 (for concrete
instantiations). -/
def vmAccept : List Char → Int := fun _ => 0

/-- A validator accepting every model name with id 0 (for concrete
instantiations). -/
def vmoAccept : Int → List Char → Int → Int := fun _ _ _ => 0

/-! ## Well-formed input fragments, for the general parser statements -/

/-- A separator run: characters the element loop skips between values
(whitespace or commas). -/
def sepRun (l : List Char) : Prop := ∀ c ∈ l, isWs c = true ∨ c = ','

/-- A plain string body: no quote and no backslash, so the scanner's raw
copy is the identity on it. -/
def plainStr (s : List Char) : Prop := ∀ c ∈ s, c ≠ '"' ∧ c ≠ '\\'

/-- Assemble array items: each item is a separator run followed by a
double-quoted string. -/
def encodeItems : List (List Char × List Char) → List Char
  | [] => []
  | (sep, s) :: rest => sep ++ '"' :: s ++ '"' :: encodeItems rest

/-- Every item has a well-formed separator run and a plain string body. -/
def wfItems (items : List (List Char × List Char)) : Prop :=
  ∀ it ∈ items, sepRun it.1 ∧ plainStr it.2

/-- The accumulated elements of a machine state. -/
def pmAcc : PM → List (List Char)
  | PM.top acc => acc
  | PM.ins acc _ _ _ => acc

/-- Mirror of the inner number loop's output: the text appended for the
remaining row entries `vals` when the loop is at index `j`. -/
def numsTail : List ℚ → Nat → List Char
  | [], _ => []
  | v :: vals, j => (if 0 < j then [','] else []) ++ fmt6 v ++ numsTail vals (j + 1)

/-- Mirror of the outer vector loop's output: the text appended for the
remaining `k` vectors when the loop is at index `i`. -/
def vecsTail (data : List ℚ) (dim : Nat) : Nat → Nat → List Char
  | _, 0 => []
  | i, k + 1 =>
    (if 0 < i then [','] else []) ++ '[' :: numsTail (rowOf data dim i) 0
      ++ ']' :: vecsTail data dim (i + 1) k

/-! # Theorems

## Parser lemmas -/

/-- Elements are skipped over separator runs: whitespace and commas do not
change the accumulated elements. -/
theorem runParse_sep (sep : List Char) :
    ∀ (p : List Char) (acc : List (List Char)), sepRun sep →
      runParse (sep ++ p) (PM.top acc) = runParse p (PM.top acc) := by
  induction sep with
  | nil => intro p acc _; rfl
  | cons c r ih =>
    intro p acc h
    have hr : sepRun r := fun d hd => h d (List.mem_cons_of_mem c hd)
    obtain hc | hc := h c (List.mem_cons_self c _)
    · simpa [runParse, hc] using ih p acc hr
    · subst hc
      simpa [runParse, isWs] using ih p acc hr

/-- Scanning a plain string body advances `str_len` by its length and ends
the token at the closing quote. -/
theorem runParse_token (s : List Char) :
    ∀ (tail : List Char) (acc : List (List Char)) (start : List Char) (len : Nat),
      plainStr s →
      runParse (s ++ '"' :: tail) (PM.ins acc start len false)
        = runParse tail (PM.top (start.take (len + s.length) :: acc)) := by
  induction s with
  | nil => intro tail acc start len _; simp [runParse]
  | cons c r ih =>
    intro tail acc start len h
    have hc := h c (List.mem_cons_self c _)
    have hr : plainStr r := fun d hd => h d (List.mem_cons_of_mem c hd)
    have := ih tail acc start (len + 1) hr
    simp only [List.cons_append, runParse, if_neg hc.1, if_neg hc.2, if_false]
    simpa [Nat.add_assoc, Nat.add_comm 1 r.length] using this

/-- A complete quoted token with a plain body appends exactly that body as
the next element. -/
theorem runParse_string (s tail : List Char) (acc : List (List Char))
    (h : plainStr s) :
    runParse ('"' :: (s ++ '"' :: tail)) (PM.top acc)
      = runParse tail (PM.top (s :: acc)) := by
  have : runParse ('"' :: (s ++ '"' :: tail)) (PM.top acc)
      = runParse (s ++ '"' :: tail) (PM.ins acc (s ++ '"' :: tail) 0 false) := by
    simp [runParse, isWs]
  rw [this, runParse_token s tail acc (s ++ '"' :: tail) 0 h]
  simp [List.take_left]

/-- Consuming a sequence of well-formed items appends their string bodies,
in order, to the accumulator. -/
theorem runParse_items (items : List (List Char × List Char)) :
    ∀ (tail : List Char) (acc : List (List Char)), wfItems items →
      runParse (encodeItems items ++ tail) (PM.top acc)
        = runParse tail (PM.top ((items.map Prod.snd).reverse ++ acc)) := by
  induction items with
  | nil => intro tail acc _; rfl
  | cons it rest ih =>
    obtain ⟨sep, s⟩ := it
    intro tail acc h
    have hit := h (sep, s) (List.mem_cons_self _ _)
    have hrest : wfItems rest := fun d hd => h d (List.mem_cons_of_mem _ hd)
    have : encodeItems ((sep, s) :: rest) ++ tail
        = sep ++ ('"' :: (s ++ '"' :: (encodeItems rest ++ tail))) := by
      simp [encodeItems]
    rw [this, runParse_sep sep _ acc hit.1,
      runParse_string s _ acc hit.2, ih _ (s :: acc) hrest]
    simp

/-- A closing bracket in value position stops the loop with success,
ignoring any trailing bytes. -/
theorem runParse_close (junk : List Char) (acc : List (List Char)) :
    runParse (']' :: junk) (PM.top acc) = some acc.reverse := by
  simp [runParse, isWs]

/-- End of input in value position also stops the loop with success: the
loop's `while (p < end)` exit falls through to the success return. -/
theorem runParse_end (acc : List (List Char)) :
    runParse [] (PM.top acc) = some acc.reverse := rfl

/-- A string token that never sees another quote runs to the end of the
input and fails: the unterminated-string error. -/
theorem runParse_noquote (s : List Char) :
    ∀ (acc : List (List Char)) (start : List Char) (len : Nat) (e : Bool),
      '"' ∉ s → runParse s (PM.ins acc start len e) = none := by
  induction s with
  | nil => intro acc start len e _; rfl
  | cons c r ih =>
    intro acc start len e h
    have hc : c ≠ '"' := fun hc => h (by simp [hc])
    have hr : '"' ∉ r := fun hr => h (List.mem_cons_of_mem c hr)
    cases e with
    | true => simpa [runParse] using ih acc start len false hr
    | false =>
      by_cases hb : c = '\\'
      · simpa [runParse, hc, hb] using ih acc start (len + 1) true hr
      · simpa [runParse, hc, hb] using ih acc start (len + 1) false hr

/-- Any byte other than whitespace, `','`, `']'` or `'"'` in value position
is a parse error. -/
theorem runParse_badchar (c : Char) (rest : List Char) (acc : List (List Char))
    (hw : isWs c = false) (h1 : c ≠ ']') (h2 : c ≠ ',') (h3 : c ≠ '"') :
    runParse (c :: rest) (PM.top acc) = none := by
  simp [runParse, hw, h1, h2, h3]

/-- Unfolding `parse_json_string_array` past the opening bracket. -/
theorem parse_json_string_array_open (rest : List Char) :
    parse_json_string_array ('[' :: rest) = runParse rest (PM.top []) := by
  simp [parse_json_string_array, skipWs, isWs]

/-- A well-formed array with a closing bracket (and arbitrary trailing
bytes) decodes to its string bodies in order. -/
theorem parse_array_closed (items : List (List Char × List Char))
    (sep junk : List Char) (hi : wfItems items) (hs : sepRun sep) :
    parse_json_string_array ('[' :: (encodeItems items ++ sep ++ ']' :: junk))
      = some (items.map Prod.snd) := by
  rw [parse_json_string_array_open, List.append_assoc,
    runParse_items items _ [] hi, runParse_sep sep _ _ hs, runParse_close]
  simp

/-- A well-formed array whose input ends without a closing bracket decodes
to its string bodies as well: the loop's end-of-input exit is the success
path. -/
theorem parse_array_unclosed (items : List (List Char × List Char))
    (sep : List Char) (hi : wfItems items) (hs : sepRun sep) :
    parse_json_string_array ('[' :: (encodeItems items ++ sep))
      = some (items.map Prod.snd) := by
  have hsep := runParse_sep sep [] ((items.map Prod.snd).reverse ++ []) hs
  rw [List.append_nil] at hsep
  rw [parse_json_string_array_open, runParse_items items _ [] hi, hsep,
    runParse_end]
  simp

/-- C1: for a valid JSON array of double-quoted strings,
`parse_json_string_array` is claimed to return each element byte-for-byte
equal to the raw content between its quotes, with escape bytes copied
as-is.  The code violates this: the scanner counts one byte per iteration
but advances two bytes at an escape, so the `memcpy` of `str_len` bytes
from `str_start` truncates the token's tail.  On `["a\nb"]` (a literal
backslash between `a` and `n`) the raw content between the quotes is the
four bytes `a`, `\`, `n`, `b`, yet the code returns the three-byte element
`a`, `\`, `n`, dropping the final `b`. -/
theorem c1_escape_truncation :
    parse_json_string_array ['[', '"', 'a', '\\', 'n', 'b', '"', ']']
        = some [['a', '\\', 'n']]
      ∧ ['a', '\\', 'n'] ≠ ['a', '\\', 'n', 'b'] := by decide

/-- C2 (counterexample): the claim states that an input which ends after
well-formed string elements without a `]` byte is a parse error; but on
`["a"` the code's element loop exits at end of input onto the success
path and returns the one decoded element. -/
theorem c2_counterexample :
    parse_json_string_array ['[', '"', 'a', '"'] = some [['a']]
      ∧ parse_json_string_array ['[', '"', 'a', '"'] ≠ none := by decide

/-- C2 (amended): a missing opening bracket, an unterminated string, and a
non-string byte in value position each make `parse_json_string_array`
fail with no output; but a missing closing bracket after well-formed
elements is accepted (the end-of-input exit of the loop is the success
path), so it is not an error. -/
theorem c2_amended_errors :
    (∀ json : List Char, skipWs json = [] →
      parse_json_string_array json = none)
  ∧ (∀ (json : List Char) (c : Char) (rest : List Char),
      skipWs json = c :: rest → c ≠ '[' →
      parse_json_string_array json = none)
  ∧ (∀ (items : List (List Char × List Char)) (sep s : List Char),
      wfItems items → sepRun sep → '"' ∉ s →
      parse_json_string_array ('[' :: (encodeItems items ++ sep ++ '"' :: s))
        = none)
  ∧ (∀ (items : List (List Char × List Char)) (sep : List Char)
      (c : Char) (rest : List Char),
      wfItems items → sepRun sep →
      isWs c = false → c ≠ ',' → c ≠ ']' → c ≠ '"' →
      parse_json_string_array ('[' :: (encodeItems items ++ sep ++ c :: rest))
        = none)
  ∧ (∀ (items : List (List Char × List Char)) (sep : List Char),
      wfItems items → sepRun sep →
      parse_json_string_array ('[' :: (encodeItems items ++ sep))
        = some (items.map Prod.snd)) := by
  refine ⟨?_, ?_, ?_, ?_, fun items sep hi hs => parse_array_unclosed items sep hi hs⟩
  · intro json h
    simp [parse_json_string_array, h]
  · intro json c rest h hc
    simp [parse_json_string_array, h, hc]
  · intro items sep s hi hs hq
    rw [parse_json_string_array_open, List.append_assoc,
      runParse_items items _ [] hi, runParse_sep sep _ _ hs]
    have : runParse ('"' :: s) (PM.top ((items.map Prod.snd).reverse ++ []))
        = runParse s (PM.ins ((items.map Prod.snd).reverse ++ []) s 0 false) := by
      simp [runParse, isWs]
    rw [this, runParse_noquote s _ s 0 false hq]
  · intro items sep c rest hi hs hw h2 h1 h3
    rw [parse_json_string_array_open, List.append_assoc,
      runParse_items items _ [] hi, runParse_sep sep _ _ hs,
      runParse_badchar c rest _ hw h1 h2 h3]

/-- The empty separator run is well formed. -/
theorem sepRun_nil : sepRun [] :=
  fun _ h => absurd h (List.not_mem_nil _)

/-- The empty item list is well formed. -/
theorem wfItems_nil : wfItems [] :=
  fun _ h => absurd h (List.not_mem_nil _)

/-- C2 (witness for the amended claim): instantiating the amended claim at
concrete erroneous and accepted inputs. -/
theorem c2_amended_witness :
    parse_json_string_array ['[', '"', 'a'] = none
      ∧ parse_json_string_array ['[', 't', ']'] = none
      ∧ parse_json_string_array ['x'] = none
      ∧ parse_json_string_array ['[', '"', 'a', '"'] = some [['a']] :=
  ⟨c2_amended_errors.2.2.1 [] [] ['a'] wfItems_nil sepRun_nil (by decide),
    c2_amended_errors.2.2.2.1 [] [] 't' [']'] wfItems_nil sepRun_nil
      (by decide) (by decide) (by decide) (by decide),
    c2_amended_errors.2.1 ['x'] 'x' [] (by decide) (by decide),
    c2_amended_errors.2.2.2.2 [([], ['a'])] []
      (by intro it hit
          simp only [List.mem_singleton] at hit
          subst hit
          refine ⟨sepRun_nil, ?_⟩
          intro c hc
          simp only [List.mem_singleton] at hc
          subst hc
          exact ⟨by decide, by decide⟩)
      sepRun_nil⟩

/-- C10: the parser requires no commas between elements and tolerates
redundant commas: two quoted strings separated only by whitespace are both
accepted as consecutive elements, any run of commas is skipped, and the
concrete inputs of the claim decode as stated. -/
theorem c10_separator_leniency :
    (∀ s1 s2 ws : List Char, plainStr s1 → plainStr s2 →
      (∀ c ∈ ws, isWs c = true) →
      parse_json_string_array
          ('[' :: ('"' :: (s1 ++ '"' :: (ws ++ '"' :: (s2 ++ ['"', ']'])))))
        = some [s1, s2])
  ∧ (∀ n : Nat,
      parse_json_string_array ('[' :: (List.replicate n ',' ++ [']']))
        = some [])
  ∧ parse_json_string_array ['[', '"', 'a', '"', ' ', '"', 'b', '"', ']']
      = some [['a'], ['b']]
  ∧ parse_json_string_array ['[', ',', ',', ']'] = some [] := by
  refine ⟨?_, ?_, by decide, by decide⟩
  · intro s1 s2 ws h1 h2 hws
    have hsep : sepRun ws := fun c hc => Or.inl (hws c hc)
    have hb : s2 ++ ['"', ']'] = s2 ++ '"' :: [']'] := by simp
    rw [parse_json_string_array_open, runParse_string s1 _ [] h1,
      runParse_sep ws _ _ hsep, hb, runParse_string s2 [']'] [s1] h2,
      runParse_close]
    rfl
  · intro n
    have hsep : sepRun (List.replicate n ',') := by
      intro c hc
      exact Or.inr (List.eq_of_mem_replicate hc)
    rw [parse_json_string_array_open, runParse_sep _ _ _ hsep, runParse_close]
    rfl

/-- C10 (witness): the general whitespace-separation part of C10 applied
to the claim's example. -/
theorem c10_witness :
    parse_json_string_array
        ('[' :: ('"' :: (['a'] ++ '"' :: ([' '] ++ '"' :: (['b'] ++ ['"', ']'])))))
      = some [['a'], ['b']] :=
  c10_separator_leniency.1 ['a'] ['b'] [' '] (by simp [plainStr])
    (by simp [plainStr]) (by decide)

/-- The instrumented machine computes the same parse result as the plain
one: the allocation bookkeeping does not change what is parsed. -/
theorem runParseA_fst (p : List Char) :
    ∀ (st : PM) (cap : Nat) (live : Int),
      (runParseA p st cap live).1 = runParse p st := by
  induction p with
  | nil => intro st cap live; cases st <;> rfl
  | cons c rest ih =>
    intro st cap live
    cases st with
    | top acc =>
      by_cases hw : isWs c
      · simpa [runParseA, runParse, hw] using ih (PM.top acc) cap live
      · by_cases h1 : c = ']'
        · subst h1
          simp [runParseA, runParse, isWs]
        · by_cases h2 : c = ','
          · simpa [runParseA, runParse, hw, h1, h2] using ih (PM.top acc) cap live
          · by_cases h3 : c = '"'
            · simpa [runParseA, runParse, hw, h1, h2, h3] using
                ih (PM.ins acc rest 0 false) cap live
            · simp [runParseA, runParse, hw, h1, h2, h3]
    | ins acc start len esc =>
      cases esc with
      | true => simpa [runParseA, runParse] using ih (PM.ins acc start len false) cap live
      | false =>
        by_cases h1 : c = '"'
        · by_cases hg : acc.length ≥ cap
          · simpa [runParseA, runParse, h1, hg] using
              ih (PM.top (start.take len :: acc)) (cap * 2) (live + 1)
          · simpa [runParseA, runParse, h1, hg] using
              ih (PM.top (start.take len :: acc)) cap (live + 1)
        · by_cases h2 : c = '\\'
          · simpa [runParseA, runParse, h1, h2] using
              ih (PM.ins acc start (len + 1) true) cap live
          · simpa [runParseA, runParse, h1, h2] using
              ih (PM.ins acc start (len + 1) false) cap live

/-- Allocation invariant of the element loop: starting from `live =
acc.length + 2` (one `str_copy` per stored element plus the two backing
arrays), an error return leaves 0 live allocations, and a success return
leaves exactly `count + 2`. -/
theorem runParseA_live (p : List Char) :
    ∀ (st : PM) (cap : Nat) (live : Int), live = (pmAcc st).length + 2 →
      ((runParseA p st cap live).1 = none → (runParseA p st cap live).2 = 0)
      ∧ (∀ r, (runParseA p st cap live).1 = some r →
          (runParseA p st cap live).2 = r.length + 2) := by
  induction p with
  | nil =>
    intro st cap live hlive
    cases st with
    | top acc =>
      refine ⟨fun h => by simp [runParseA] at h, fun r hr => ?_⟩
      simp only [runParseA, Option.some.injEq] at hr ⊢
      subst hr
      simpa [pmAcc] using hlive
    | ins acc start len esc =>
      refine ⟨fun _ => ?_, fun r hr => by simp [runParseA] at hr⟩
      simp only [runParseA]
      simp only [pmAcc] at hlive
      omega
  | cons c rest ih =>
    intro st cap live hlive
    cases st with
    | top acc =>
      by_cases hw : isWs c
      · simpa [runParseA, hw] using ih (PM.top acc) cap live hlive
      · by_cases h1 : c = ']'
        · subst h1
          have he : runParseA (']' :: rest) (PM.top acc) cap live
              = (some acc.reverse, live) := by simp [runParseA, isWs]
          rw [he]
          constructor
          · intro h
            exact absurd h (by simp)
          · intro r hr
            have hra : acc.reverse = r := by simpa using hr
            subst hra
            simpa [pmAcc] using hlive
        · by_cases h2 : c = ','
          · simpa [runParseA, hw, h1, h2] using ih (PM.top acc) cap live hlive
          · by_cases h3 : c = '"'
            · simpa [runParseA, hw, h1, h2, h3] using
                ih (PM.ins acc rest 0 false) cap live hlive
            · refine ⟨fun _ => ?_, fun r hr => ?_⟩
              · simp only [runParseA, hw, h1, h2, h3, if_false,
                  Bool.false_eq_true]
                simp only [pmAcc] at hlive
                omega
              · simp [runParseA, hw, h1, h2, h3] at hr
    | ins acc start len esc =>
      cases esc with
      | true =>
        simpa [runParseA] using ih (PM.ins acc start len false) cap live hlive
      | false =>
        by_cases h1 : c = '"'
        · simp only [pmAcc] at hlive
          by_cases hg : acc.length ≥ cap
          · have := ih (PM.top (start.take len :: acc)) (cap * 2) (live + 1)
              (by simp [pmAcc]; omega)
            simpa [runParseA, h1, hg] using this
          · have := ih (PM.top (start.take len :: acc)) cap (live + 1)
              (by simp [pmAcc]; omega)
            simpa [runParseA, h1, hg] using this
        · by_cases h2 : c = '\\'
          · simpa [runParseA, h1, h2] using
              ih (PM.ins acc start (len + 1) true) cap live hlive
          · simpa [runParseA, h1, h2] using
              ih (PM.ins acc start (len + 1) false) cap live hlive

/-- Both components of the instrumented parser: the parse result agrees
with `parse_json_string_array`, an error leaves 0 live allocations, and a
success leaves `count + 2` (the element copies and the two backing
arrays, all handed to the caller). -/
theorem parse_instr_spec (json : List Char) :
    (parse_json_string_array_instr json).1 = parse_json_string_array json
    ∧ ((parse_json_string_array_instr json).1 = none →
        (parse_json_string_array_instr json).2 = 0)
    ∧ (∀ r, (parse_json_string_array_instr json).1 = some r →
        (parse_json_string_array_instr json).2 = r.length + 2) := by
  unfold parse_json_string_array_instr parse_json_string_array
  by_cases h : (skipWs json).head? = some '['
  · simp only [h, if_true]
    exact ⟨runParseA_fst _ _ _ _,
      (runParseA_live _ (PM.top []) 10 2 (by simp [pmAcc])).1,
      (runParseA_live _ (PM.top []) 10 2 (by simp [pmAcc])).2⟩
  · simp [h]

/-- C3: on every input on which `parse_json_string_array` reports a parse
error, no partial results are returned — the model returns `none`, so the
output parameters are never written — and every previously captured
element and both backing arrays have been released: the live-allocation
count at the error return is 0. -/
theorem c3_error_releases_all (json : List Char)
    (h : (parse_json_string_array_instr json).1 = none) :
    (parse_json_string_array_instr json).2 = 0 :=
  (parse_instr_spec json).2.1 h

/-- C3 (witness): the unterminated-string input `["a` errors after one
element-free prefix, and the non-string input `[t]` errors after the
backing arrays were allocated; both leave 0 live allocations. -/
theorem c3_witness :
    (parse_json_string_array_instr ['[', '"', 'a']).1 = none
      ∧ (parse_json_string_array_instr ['[', '"', 'a']).2 = 0
      ∧ (parse_json_string_array_instr ['[', '"', 'x', '"', ',', 't']).2 = 0 :=
  ⟨by decide, c3_error_releases_all ['[', '"', 'a'] (by decide),
    c3_error_releases_all ['[', '"', 'x', '"', ',', 't'] (by decide)⟩

/-- When the inner number loop succeeds, it appends exactly the mirror
text `numsTail` for its row. -/
theorem serNums_some (vals : List ℚ) :
    ∀ (j : Nat) (out : List Char) (lens : List Nat) (s : List Char)
      (lens2 : List Nat),
      serNums vals j out lens = (some s, lens2) → s = out ++ numsTail vals j := by
  induction vals with
  | nil =>
    intro j out lens s lens2 h
    simp only [serNums, Prod.mk.injEq, Option.some.injEq] at h
    simp [numsTail, ← h.1]
  | cons v vals ih =>
    intro j out lens s lens2 h
    simp only [serNums] at h
    by_cases hc : jsonCapacity - 1000
        < ((if 0 < j then out ++ [','] else out) ++ fmt6 v).length
    · rw [if_pos hc] at h
      simp at h
    · rw [if_neg hc] at h
      have := ih (j + 1) _ _ s lens2 h
      by_cases hj : 0 < j <;>
        simp [this, numsTail, hj, List.append_assoc]

/-- Past the first entry, `numsTail` is a flat run of comma-prefixed
formatted numbers. -/
theorem numsTail_shift (vals : List ℚ) :
    ∀ j : Nat, numsTail vals (j + 1) = (vals.map fun v => ',' :: fmt6 v).flatten := by
  induction vals with
  | nil => intro j; rfl
  | cons v vals ih =>
    intro j
    simp [numsTail, ih (j + 1)]

/-- `commaJoin` separates the head from a flat run of comma-prefixed
continuations. -/
theorem commaJoin_cons (a : List Char) (l : List (List Char)) :
    commaJoin (a :: l) = a ++ (l.map fun s => ',' :: s).flatten := by
  induction l generalizing a with
  | nil => simp [commaJoin]
  | cons s r ih =>
    simp [commaJoin, ih s]

/-- Starting at index 0, the inner loop's text is the comma-separated join
of the formatted row. -/
theorem numsTail_zero (vals : List ℚ) :
    numsTail vals 0 = commaJoin (vals.map fmt6) := by
  cases vals with
  | nil => rfl
  | cons v vals =>
    simp [numsTail, numsTail_shift vals 0, commaJoin_cons, List.map_map,
      Function.comp_def]

/-- When the outer vector loop succeeds, it appends exactly the mirror
text `vecsTail`. -/
theorem serVecs_some (data : List ℚ) (dim : Nat) :
    ∀ (k i : Nat) (out : List Char) (lens : List Nat) (s : List Char)
      (lens2 : List Nat),
      serVecs data dim i k out lens = (some s, lens2)
        → s = out ++ vecsTail data dim i k := by
  intro k
  induction k with
  | zero =>
    intro i out lens s lens2 h
    simp only [serVecs, Prod.mk.injEq, Option.some.injEq] at h
    simp [vecsTail, ← h.1]
  | succ k ih =>
    intro i out lens s lens2 h
    simp only [serVecs] at h
    rcases hsn : serNums (rowOf data dim i) 0
        ((if 0 < i then out ++ [','] else out) ++ ['[']) lens with ⟨r, lens1⟩
    rw [hsn] at h
    cases r with
    | none => simp at h
    | some out2 =>
      simp only at h
      have h2 := ih (i + 1) (out2 ++ [']']) lens1 s lens2 h
      have h1 := serNums_some (rowOf data dim i) 0 _ lens out2 lens1 hsn
      subst h1
      by_cases hi : 0 < i <;>
        simp [h2, vecsTail, hi, List.append_assoc]

/-- Past the first vector, `vecsTail` is a flat run of comma-prefixed
bracketed rows. -/
theorem vecsTail_shift (data : List ℚ) (dim : Nat) :
    ∀ (k i : Nat),
      vecsTail data dim (i + 1) k
        = ((List.range k).map fun m =>
            ',' :: '[' :: numsTail (rowOf data dim (i + 1 + m)) 0 ++ [']']).flatten := by
  intro k
  induction k with
  | zero => intro i; rfl
  | succ k ih =>
    intro i
    rw [List.range_succ_eq_map]
    simp only [vecsTail, List.map_cons, List.map_map, List.flatten_cons]
    rw [ih (i + 1)]
    have hf : (fun m => ',' :: '[' ::
          (numsTail (rowOf data dim (i + 1 + 1 + m)) 0 ++ [']']))
        = ((fun m => ',' :: '[' ::
            (numsTail (rowOf data dim (i + 1 + m)) 0 ++ [']'])) ∘ Nat.succ) := by
      funext m
      simp only [Function.comp_apply, Nat.succ_eq_add_one]
      have h2 : i + 1 + 1 + m = i + 1 + (m + 1) := by omega
      rw [h2]
    simp only [Nat.zero_lt_succ, if_pos, Nat.add_zero, List.cons_append,
      List.singleton_append, List.append_assoc, List.nil_append, hf]

/-- Starting at vector 0, the outer loop's text is the comma-separated
join of the bracketed rows. -/
theorem vecsTail_zero (data : List ℚ) (dim : Nat) :
    ∀ k : Nat,
      vecsTail data dim 0 k
        = commaJoin ((List.range k).map fun i =>
            '[' :: numsTail (rowOf data dim i) 0 ++ [']']) := by
  intro k
  cases k with
  | zero => rfl
  | succ k =>
    rw [List.range_succ_eq_map]
    simp only [List.map_cons, commaJoin_cons, List.map_map]
    simp only [vecsTail, vecsTail_shift data dim k 0]
    have hf : (fun m => ',' :: '[' ::
          (numsTail (rowOf data dim (0 + 1 + m)) 0 ++ [']']))
        = ((fun s => ',' :: s)
            ∘ (fun i => '[' :: (numsTail (rowOf data dim i) 0 ++ [']']))
            ∘ Nat.succ) := by
      funext m
      simp only [Function.comp_apply, Nat.succ_eq_add_one]
      have h2 : 0 + 1 + m = m + 1 := by omega
      rw [h2]
    simp only [Nat.lt_irrefl, if_false, List.nil_append, List.cons_append,
      List.singleton_append, List.append_assoc, hf]

/-- A successful serialization produces exactly the spec's nested
comma-separated shape. -/
theorem serializeA_some_spec (data : List ℚ) (nv dim : Nat) (s : List Char)
    (h : (serializeA data nv dim).1 = some s) :
    s = batchJsonSpec data nv dim := by
  unfold serializeA at h
  rcases hsv : serVecs data dim 0 nv ['['] [] with ⟨r, lens⟩
  rw [hsv] at h
  cases r with
  | none => simp at h
  | some out =>
    simp only [Option.some.injEq] at h
    have hout := serVecs_some data dim nv 0 ['['] [] out lens hsv
    subst hout
    rw [← h]
    unfold batchJsonSpec rowsOf
    rw [vecsTail_zero data dim nv, List.map_map]
    have hf : ∀ i ∈ List.range nv,
        (fun i => '[' :: numsTail (rowOf data dim i) 0 ++ [']']) i
          = ((fun r => '[' :: commaJoin (r.map fmt6) ++ [']'])
              ∘ rowOf data dim) i := by
      intro i _
      simp [Function.comp_def, numsTail_zero]
    rw [List.map_congr_left hf]
    simp

/-- C4: whenever the batch path serializes a batch of `n_vectors` vectors
of `dim` entries, the JSON output is exactly a JSON array of `n_vectors`
arrays of `dim` numbers, each `%.6f`-formatted, comma-separated, with no
surrounding whitespace; an empty batch serializes to exactly the two bytes
`[]`, and the batch `[[1.0, 2.5], [3.25, 4.0]]` serializes to exactly
`[[1.000000,2.500000],[3.250000,4.000000]]`. -/
theorem c4_batch_json_shape :
    (∀ (data : List ℚ) (nv dim : Nat) (s : List Char),
      (serializeA data nv dim).1 = some s → s = batchJsonSpec data nv dim)
  ∧ (∀ (data : List ℚ) (dim : Nat), (serializeA data 0 dim).1 = some "[]".toList)
  ∧ (serializeA [1, mkRat 5 2, mkRat 13 4, 4] 2 2).1
      = some "[[1.000000,2.500000],[3.250000,4.000000]]".toList :=
  ⟨serializeA_some_spec, fun _ _ => rfl, by decide⟩

/-- C4 (witness): the general shape statement applied to the concrete
batch of the claim. -/
theorem c4_witness :
    "[[1.000000,2.500000],[3.250000,4.000000]]".toList
      = batchJsonSpec [1, mkRat 5 2, mkRat 13 4, 4] 2 2 :=
  c4_batch_json_shape.1 [1, mkRat 5 2, mkRat 13 4, 4] 2 2 _ (by decide)

/-- The inner number loop aborts exactly when one of its checked lengths
exceeds the margin, and on success every checked length is within it. -/
theorem serNums_abort (vals : List ℚ) :
    ∀ (j : Nat) (out : List Char) (lens : List Nat),
      (∀ l ∈ lens, l ≤ jsonCapacity - 1000) →
      (((serNums vals j out lens).1 = none
          ↔ ∃ l ∈ (serNums vals j out lens).2, jsonCapacity - 1000 < l)
        ∧ ((serNums vals j out lens).1 ≠ none →
            ∀ l ∈ (serNums vals j out lens).2, l ≤ jsonCapacity - 1000)) := by
  induction vals with
  | nil =>
    intro j out lens hlens
    simp only [serNums]
    refine ⟨⟨fun h => absurd h (by simp), ?_⟩, fun _ => hlens⟩
    rintro ⟨l, hl, hgt⟩
    exact absurd (hlens l hl) (by omega)
  | cons v vals ih =>
    intro j out lens hlens
    simp only [serNums]
    by_cases hc : jsonCapacity - 1000
        < ((if 0 < j then out ++ [','] else out) ++ fmt6 v).length
    · rw [if_pos hc]
      exact ⟨⟨fun _ => ⟨_, by simp, hc⟩, fun _ => rfl⟩, fun h => absurd rfl h⟩
    · rw [if_neg hc]
      apply ih
      intro l hl
      rcases List.mem_append.1 hl with h | h
      · exact hlens l h
      · simp only [List.mem_singleton] at h
        omega

/-- The outer vector loop aborts exactly when one of the checked lengths
exceeds the margin, and on success every checked length is within it. -/
theorem serVecs_abort (data : List ℚ) (dim : Nat) :
    ∀ (k i : Nat) (out : List Char) (lens : List Nat),
      (∀ l ∈ lens, l ≤ jsonCapacity - 1000) →
      (((serVecs data dim i k out lens).1 = none
          ↔ ∃ l ∈ (serVecs data dim i k out lens).2, jsonCapacity - 1000 < l)
        ∧ ((serVecs data dim i k out lens).1 ≠ none →
            ∀ l ∈ (serVecs data dim i k out lens).2, l ≤ jsonCapacity - 1000)) := by
  intro k
  induction k with
  | zero =>
    intro i out lens hlens
    simp only [serVecs]
    refine ⟨⟨fun h => absurd h (by simp), ?_⟩, fun _ => hlens⟩
    rintro ⟨l, hl, hgt⟩
    exact absurd (hlens l hl) (by omega)
  | succ k ih =>
    intro i out lens hlens
    simp only [serVecs]
    rcases hsn : serNums (rowOf data dim i) 0
        ((if 0 < i then out ++ [','] else out) ++ ['[']) lens with ⟨r, lens1⟩
    have hn := serNums_abort (rowOf data dim i) 0
      ((if 0 < i then out ++ [','] else out) ++ ['[']) lens hlens
    rw [hsn] at hn
    cases r with
    | none =>
      constructor
      · simp only [true_iff]
        exact hn.1.1 rfl
      · intro h
        exact absurd rfl h
    | some out2 =>
      apply ih
      exact hn.2 (by simp)

/-- `serializeA` aborts exactly when one of the safety-margin checks after
writing a number sees a length above `jsonCapacity - 1000`. -/
theorem serializeA_abort (data : List ℚ) (nv dim : Nat) :
    (serializeA data nv dim).1 = none
      ↔ ∃ l ∈ (serializeA data nv dim).2, jsonCapacity - 1000 < l := by
  unfold serializeA
  rcases hsv : serVecs data dim 0 nv ['['] [] with ⟨r, lens⟩
  have hv := serVecs_abort data dim nv 0 ['['] [] (by simp)
  rw [hsv] at hv
  cases r with
  | none => simpa using hv.1
  | some out => simpa using hv.1

/-- C7: during batch serialization the written length is checked after
each formatted number against the 1000-byte safety margin below the fixed
1 MiB capacity: serialization aborts exactly when one of those checked
lengths exceeds `jsonCapacity - 1000`; and when it aborts, the call
releases the output buffer and the batch (release count 1, live
allocations 0), sets the error flag and returns no output. -/
theorem c7_capacity_margin :
    (∀ (data : List ℚ) (nv dim : Nat),
      (serializeA data nv dim).1 = none
        ↔ ∃ l ∈ (serializeA data nv dim).2, jsonCapacity - 1000 < l)
  ∧ (∀ (m mo t : List Char) (vm : List Char → Int)
      (vmo : Int → List Char → Int → Int) (batch : BatchQ)
      (strs : List (List Char)) (plive : Int),
      0 ≤ vm m → 0 ≤ vmo (vm m) mo INPUT_TYPE_TEXT →
      parse_json_string_array_instr t = (some strs, plive) → strs ≠ [] →
      (serializeA batch.data batch.n_vectors batch.dim).1 = none →
      generate_embeddingsM (some m) (some mo) (some t) vm vmo 0 batch
        = (UdfRes.err, ⟨true, 1, 0⟩)) := by
  refine ⟨serializeA_abort, ?_⟩
  intro m mo t vm vmo batch strs plive h1 h2 hp hne hser
  have hplive : plive = strs.length + 2 := by
    have h := (parse_instr_spec t).2.2 strs (by rw [hp])
    rw [hp] at h
    exact h
  have hlen0 : ¬strs.length = 0 := by
    simpa [List.length_eq_zero] using hne
  simp only [generate_embeddingsM, hp, if_neg (not_lt.mpr h1),
    if_neg (not_lt.mpr h2), if_neg hlen0,
    if_neg (show ¬((0 : Int) ≠ 0) by simp), hser]
  simp only [Prod.mk.injEq, BTrace.mk.injEq, true_and]
  omega

/-- C7 (witness): the abort characterization instantiated at a small
batch (which does not overflow, so neither side of the equivalence
holds). -/
theorem c7_witness :
    ((serializeA [1] 1 1).1 = none
      ↔ ∃ l ∈ (serializeA [1] 1 1).2, jsonCapacity - 1000 < l)
    ∧ (serializeA [1] 1 1).1 ≠ none :=
  ⟨c7_capacity_margin.1 [1] 1 1, by decide⟩

/-- C8: a call with any null argument reports null, does not set the
error flag, and never invokes the engine — on both the single-text and the
batch path; and a batch call whose payload decodes to zero elements also
reports null without invoking the engine. -/
theorem c8_absent_inputs :
    (∀ (method model text : Option (List Char)) (vm : List Char → Int)
      (vmo : Int → List Char → Int → Int) (e : Int) (b : Batch32),
      method = none ∨ model = none ∨ text = none →
      (generate_embeddingM method model text vm vmo e b).1 = UdfRes.null
      ∧ (generate_embeddingM method model text vm vmo e b).2.engineCalled = false)
  ∧ (∀ (method model texts : Option (List Char)) (vm : List Char → Int)
      (vmo : Int → List Char → Int → Int) (e : Int) (b : BatchQ),
      method = none ∨ model = none ∨ texts = none →
      (generate_embeddingsM method model texts vm vmo e b).1 = UdfRes.null
      ∧ (generate_embeddingsM method model texts vm vmo e b).2.engineCalled = false)
  ∧ (∀ (m mo t : List Char) (vm : List Char → Int)
      (vmo : Int → List Char → Int → Int) (e : Int) (b : BatchQ) (plive : Int),
      0 ≤ vm m → 0 ≤ vmo (vm m) mo INPUT_TYPE_TEXT →
      parse_json_string_array_instr t = (some [], plive) →
      (generate_embeddingsM (some m) (some mo) (some t) vm vmo e b).1 = UdfRes.null
      ∧ (generate_embeddingsM (some m) (some mo) (some t) vm vmo e b).2.engineCalled
          = false) := by
  refine ⟨?_, ?_, ?_⟩
  · intro method model text vm vmo e b h
    cases method <;> cases model <;> cases text <;>
      first
        | exact ⟨rfl, rfl⟩
        | (rcases h with h | h | h <;> simp at h)
  · intro method model texts vm vmo e b h
    cases method <;> cases model <;> cases texts <;>
      first
        | exact ⟨rfl, rfl⟩
        | (rcases h with h | h | h <;> simp at h)
  · intro m mo t vm vmo e b plive h1 h2 hp
    simp only [generate_embeddingsM, hp, if_neg (not_lt.mpr h1),
      if_neg (not_lt.mpr h2), List.length_nil, if_pos rfl]
    exact ⟨rfl, rfl⟩

/-- C8 (witness): the absent-input and empty-batch parts applied at
concrete inputs (`texts = "[]"` decodes to zero elements). -/
theorem c8_witness :
    ((generate_embeddingM none (some ['o']) (some ['t'])
        vmAccept vmoAccept 0 ⟨[], 0, 0⟩).1 = UdfRes.null)
    ∧ ((generate_embeddingsM (some ['m']) (some ['o']) none
        vmAccept vmoAccept 0 ⟨[], 0, 0⟩).1 = UdfRes.null)
    ∧ ((generate_embeddingsM (some ['m']) (some ['o']) (some ['[', ']'])
        vmAccept vmoAccept 0 ⟨[], 0, 0⟩).1 = UdfRes.null
      ∧ (generate_embeddingsM (some ['m']) (some ['o']) (some ['[', ']'])
        vmAccept vmoAccept 0 ⟨[], 0, 0⟩).2.engineCalled = false) :=
  ⟨(c8_absent_inputs.1 none (some ['o']) (some ['t']) vmAccept vmoAccept 0
      ⟨[], 0, 0⟩ (Or.inl rfl)).1,
    (c8_absent_inputs.2.1 (some ['m']) (some ['o']) none vmAccept vmoAccept 0
      ⟨[], 0, 0⟩ (Or.inr (Or.inr rfl))).1,
    c8_absent_inputs.2.2 ['m'] ['o'] ['[', ']'] vmAccept vmoAccept 0
      ⟨[], 0, 0⟩ 2 (by decide) (by decide) (by decide)⟩

/-- C9 (counterexample): the claim states the core never calls the
engine's release on a batch whose generation call returned a non-zero
error code; but on both paths the code calls `free_embedding_batch`
exactly there (lines 142-147 and 353-358): with engine error code 1 the
release count is 1, not 0. -/
theorem c9_counterexample :
    (generate_embeddingM (some ['m']) (some ['o']) (some ['t'])
        vmAccept vmoAccept 1 ⟨[], 0, 0⟩).2.releases = 1
    ∧ (generate_embeddingsM (some ['m']) (some ['o'])
        (some ['[', '"', 'a', '"', ']'])
        vmAccept vmoAccept 7 ⟨[], 0, 0⟩).2.releases = 1 := by decide

/-- C9 (amended): on every execution path of both call paths,
`free_embedding_batch` is called exactly once whenever
`generate_embeddings_from_texts` was invoked — including when it returns a
non-zero error code — and never when it was not invoked. -/
theorem c9_release_per_engine_call :
    (∀ (method model text : Option (List Char)) (vm : List Char → Int)
      (vmo : Int → List Char → Int → Int) (e : Int) (b : Batch32),
      (generate_embeddingM method model text vm vmo e b).2.releases
        = if (generate_embeddingM method model text vm vmo e b).2.engineCalled
          then 1 else 0)
  ∧ (∀ (method model texts : Option (List Char)) (vm : List Char → Int)
      (vmo : Int → List Char → Int → Int) (e : Int) (b : BatchQ),
      (generate_embeddingsM method model texts vm vmo e b).2.releases
        = if (generate_embeddingsM method model texts vm vmo e b).2.engineCalled
          then 1 else 0) := by
  constructor
  · intro method model text vm vmo e b
    cases method with
    | none => rfl
    | some m =>
      cases model with
      | none => rfl
      | some mo =>
        cases text with
        | none => rfl
        | some t =>
          simp only [generate_embeddingM]
          split_ifs <;> first | rfl | simp_all
  · intro method model texts vm vmo e b
    cases method with
    | none => rfl
    | some m =>
      cases model with
      | none => rfl
      | some mo =>
        cases texts with
        | none => rfl
        | some t =>
          simp only [generate_embeddingsM]
          rcases hp : parse_json_string_array_instr t with ⟨r, plive⟩
          cases r with
          | none => split_ifs <;> first | rfl | simp_all
          | some strs =>
            rcases hs : (serializeA b.data b.n_vectors b.dim).1 with _ | s <;>
              simp only [hs] <;> split_ifs <;> first | rfl | simp_all

/-- C9 (witness for the amended claim): release counts on concrete calls
— engine failure on the single path (released once), engine not invoked on
a null-argument call (never released), and a successful batch call
(released once). -/
theorem c9_witness :
    (generate_embeddingM (some ['m']) (some ['o']) (some ['t'])
        vmAccept vmoAccept 1 ⟨[], 0, 0⟩).2.releases
      = (if (generate_embeddingM (some ['m']) (some ['o']) (some ['t'])
          vmAccept vmoAccept 1 ⟨[], 0, 0⟩).2.engineCalled then 1 else 0)
    ∧ (generate_embeddingsM none none none vmAccept vmoAccept 0
        ⟨[], 0, 0⟩).2.releases
      = (if (generate_embeddingsM none none none vmAccept vmoAccept 0
          ⟨[], 0, 0⟩).2.engineCalled then 1 else 0) :=
  ⟨c9_release_per_engine_call.1 (some ['m']) (some ['o']) (some ['t'])
      vmAccept vmoAccept 1 ⟨[], 0, 0⟩,
    c9_release_per_engine_call.2 none none none vmAccept vmoAccept 0
      ⟨[], 0, 0⟩⟩

/-- A 32-bit little-endian encoding is 4 bytes. -/
theorem u32le_length (n : Nat) : (u32le n).length = 4 := rfl

/-- Encoding then decoding a value below `2 ^ 32` is the identity. -/
theorem decodeU32_u32le (n : Nat) (h : n < 4294967296) :
    decodeU32 (u32le n) = n := by
  simp only [u32le, decodeU32]
  omega

/-- Decoding the concatenated 4-byte encodings of 32-bit words recovers
the word sequence. -/
theorem decodeF32s_u32le (ws : List Nat) (h : ∀ w ∈ ws, w < 4294967296) :
    decodeF32s ((ws.map u32le).flatten) = ws := by
  induction ws with
  | nil => rfl
  | cons w ws ih =>
    have hw := h w (List.mem_cons_self w _)
    have hrec := ih (fun x hx => h x (List.mem_cons_of_mem w hx))
    have hfl : ((w :: ws).map u32le).flatten
        = w % 256 :: (w / 256 % 256 :: (w / 65536 % 256
            :: (w / 16777216 % 256 :: (ws.map u32le).flatten))) := by
      simp [u32le]
    rw [hfl]
    simp only [decodeF32s]
    rw [hrec]
    congr 1
    simpa [u32le] using decodeU32_u32le w hw

/-- The concatenated encodings of `n` words occupy `4 * n` bytes. -/
theorem flatten_u32le_length (ws : List Nat) :
    ((ws.map u32le).flatten).length = 4 * ws.length := by
  induction ws with
  | nil => rfl
  | cons w ws ih =>
    simp only [List.map_cons, List.flatten_cons, List.length_append, ih,
      u32le_length, List.length_cons]
    omega

/-- C5: a single-text call whose engine invocation succeeds with exactly
one vector of dimension `dim` returns a binary result of exactly
`4 + 4 * dim` bytes whose first 4 bytes decode (little-endian, the native
order of the supported platforms) to the unsigned 32-bit value `dim` and
whose remaining `4 * dim` bytes are the vector's IEEE-754 single-precision
floats in order, decoding back to the original floats (bit patterns)
exactly. -/
theorem c5_binary_layout (m mo t : List Char) (vm : List Char → Int)
    (vmo : Int → List Char → Int → Int) (b : Batch32)
    (h1 : 0 ≤ vm m) (h2 : 0 ≤ vmo (vm m) mo INPUT_TYPE_TEXT)
    (hnv : b.n_vectors = 1) (hlen : b.data.length = b.dim)
    (hw : ∀ w ∈ b.data, w < 4294967296) (hd : b.dim < 4294967296) :
    ∃ bytes,
      (generate_embeddingM (some m) (some mo) (some t) vm vmo 0 b).1
        = UdfRes.ok bytes
      ∧ bytes.length = 4 + 4 * b.dim
      ∧ decodeU32 (bytes.take 4) = b.dim
      ∧ decodeF32s (bytes.drop 4) = b.data := by
  refine ⟨u32le b.dim ++ (b.data.map u32le).flatten, ?_, ?_, ?_, ?_⟩
  · simp only [generate_embeddingM, if_neg (not_lt.mpr h1),
      if_neg (not_lt.mpr h2),
      if_neg (show ¬((0 : Int) ≠ 0 ∨ b.n_vectors ≠ 1) by simp [hnv])]
  · simp only [List.length_append, u32le_length, flatten_u32le_length, hlen]
  · rw [show (4 : Nat) = (u32le b.dim).length from rfl, List.take_left]
    exact decodeU32_u32le b.dim hd
  · rw [show (4 : Nat) = (u32le b.dim).length from rfl, List.drop_left]
    exact decodeF32s_u32le b.data hw

/-- C5 (witness): the layout at dimension 2 with the bit patterns of the
floats 1.0f and 2.5f. -/
theorem c5_witness :
    ∃ bytes,
      (generate_embeddingM (some ['m']) (some ['o']) (some ['t'])
          vmAccept vmoAccept 0 ⟨[1065353216, 1075838976], 1, 2⟩).1
        = UdfRes.ok bytes
      ∧ bytes.length = 4 + 4 * 2
      ∧ decodeU32 (bytes.take 4) = 2
      ∧ decodeF32s (bytes.drop 4) = [1065353216, 1075838976] :=
  c5_binary_layout ['m'] ['o'] ['t'] vmAccept vmoAccept
    ⟨[1065353216, 1075838976], 1, 2⟩ (by decide) (by decide) rfl rfl
    (by decide) (by decide)

/-- C6: a single-text call in which the engine reports success but
produces a batch with `n_vectors` equal to 0 or greater than 1 sets the
error flag and returns no output. -/
theorem c6_wrong_vector_count (m mo t : List Char) (vm : List Char → Int)
    (vmo : Int → List Char → Int → Int) (b : Batch32)
    (h1 : 0 ≤ vm m) (h2 : 0 ≤ vmo (vm m) mo INPUT_TYPE_TEXT)
    (hnv : b.n_vectors ≠ 1) :
    (generate_embeddingM (some m) (some mo) (some t) vm vmo 0 b).1
      = UdfRes.err := by
  simp only [generate_embeddingM, if_neg (not_lt.mpr h1),
    if_neg (not_lt.mpr h2), if_pos (Or.inr hnv)]

/-- C6 (witness): an engine success with zero vectors, and one with two
vectors, each yield the error flag and no output. -/
theorem c6_witness :
    (generate_embeddingM (some ['m']) (some ['o']) (some ['t'])
        vmAccept vmoAccept 0 ⟨[], 0, 3⟩).1 = UdfRes.err
    ∧ (generate_embeddingM (some ['m']) (some ['o']) (some ['t'])
        vmAccept vmoAccept 0 ⟨[1, 2], 2, 1⟩).1 = UdfRes.err :=
  ⟨c6_wrong_vector_count ['m'] ['o'] ['t'] vmAccept vmoAccept ⟨[], 0, 3⟩
      (by decide) (by decide) (by decide),
    c6_wrong_vector_count ['m'] ['o'] ['t'] vmAccept vmoAccept ⟨[1, 2], 2, 1⟩
      (by decide) (by decide) (by decide)⟩

